import Mathlib

set_option maxRecDepth 4000
set_option maxHeartbeats 1000000

/-- Whitespace predicate modelling the characters JavaScript trims in the
ASCII range (space, tab, newline, carriage return). -/
def isWs (c : Char) : Bool :=
  c = ' ' || c = '\t' || c = '\n' || c = '\r'

/-- Lowercase ASCII letter, modelling the regex test of a lowercase range. -/
def isLowerAlpha (c : Char) : Bool :=
  'a' ≤ c && c ≤ 'z'

/-- ASCII digit, modelling a digit-class regex test. -/
def isDigit (c : Char) : Bool :=
  '0' ≤ c && c ≤ '9'

/-- ASCII letter, part of the word-character class used by the
abbreviation scan. -/
def isAlpha (c : Char) : Bool :=
  ('a' ≤ c && c ≤ 'z') || ('A' ≤ c && c ≤ 'Z')

/-- Word character for the abbreviation back-scan: a letter or a period. -/
def isWordChar (c : Char) : Bool :=
  isAlpha c || c = '.'

/-- Strip leading whitespace, modelling trimStart. -/
def trimStart (l : List Char) : List Char :=
  l.dropWhile isWs

/-- Strip trailing whitespace. -/
def trimEnd (l : List Char) : List Char :=
  (l.reverse.dropWhile isWs).reverse

/-- Strip whitespace at both ends, modelling the source's trim calls. -/
def trim (l : List Char) : List Char :=
  trimEnd (trimStart l)

namespace SentenceBuffer

/-- The fixed abbreviation set from the source: words that end with a
period without ending a sentence. -/
def ABBREVIATIONS : List (List Char) :=
  ["mr".toList, "mrs".toList, "ms".toList, "dr".toList, "prof".toList,
   "sr".toList, "jr".toList, "vs".toList, "etc".toList, "inc".toList,
   "ltd".toList, "co".toList, "st".toList, "ave".toList, "blvd".toList,
   "rd".toList, "apt".toList, "no".toList, "vol".toList, "rev".toList,
   "gen".toList, "col".toList, "lt".toList, "sgt".toList, "capt".toList,
   "cmdr".toList, "adm".toList, "gov".toList, "sen".toList, "rep".toList,
   "hon".toList, "pres".toList, "i.e".toList, "e.g".toList, "cf".toList,
   "al".toList, "et".toList]

/-- Backward scan for the start of the word preceding a position: walks
down from index pos - 1 while the character is a letter or period, exactly
like the while loop of the abbreviation check. `scanWordStart buffer pos`
returns the final wordStart value. -/
def scanWordStart (buffer : List Char) : Nat → Nat
  | 0 => 0
  | k + 1 => if isWordChar (buffer.getD k ' ') then scanWordStart buffer k else k + 1

/-- Abbreviation test: lowercase the word ending right before the period
at pos and look it up in the fixed abbreviation set. -/
def isAbbreviation (buffer : List Char) (pos : Nat) : Bool :=
  let ws := scanWordStart buffer pos
  let word := ((buffer.take pos).drop ws).map Char.toLower
  ABBREVIATIONS.contains word

/-- Decimal-number test: a digit immediately before and after the period
at pos (the source reads an empty character when out of range, which a
digit test rejects). -/
def isDecimalNumber (buffer : List Char) (pos : Nat) : Bool :=
  (if pos = 0 then false else isDigit (buffer.getD (pos - 1) ' '))
    && (if pos < buffer.length - 1 then isDigit (buffer.getD (pos + 1) ' ') else false)

/-- Does the list contain three consecutive periods anywhere. -/
def hasEllipsis : List Char → Bool
  | c1 :: c2 :: c3 :: rest =>
    if c1 = '.' && c2 = '.' && c3 = '.' then true else hasEllipsis (c2 :: c3 :: rest)
  | _ => false

/-- Ellipsis test: the window from pos - 2 to pos + 2 (the source slice
from max 0 (pos - 2) up to exclusive pos + 3) contains three periods. -/
def isEllipsis (buffer : List Char) (pos : Nat) : Bool :=
  hasEllipsis ((buffer.take (pos + 3)).drop (pos - 2))

/-- Validity of a candidate sentence end at pos, transcribed from the
source: reject when exactly one character follows; when at least two
follow, reject if the next non-space character is lowercase; for a period,
additionally reject abbreviations, decimal numbers and ellipses. -/
def isValidSentenceEnd (buffer : List Char) (pos : Nat) : Bool :=
  let c := buffer.getD pos ' '
  let after := buffer.drop (pos + 1)
  if after.length < 2 && 0 < after.length then false
  else if 2 ≤ after.length
      && (let afterTrimmed := trimStart after
          0 < afterTrimmed.length && isLowerAlpha (afterTrimmed.headD ' ')) then
    false
  else if c = '.' then
    if isAbbreviation buffer pos then false
    else if isDecimalNumber buffer pos then false
    else if isEllipsis buffer pos then false
    else true
  else true

/-- Sentence-ending punctuation. -/
def isDelim (c : Char) : Bool :=
  c = '.' || c = '!' || c = '?'

/-- First position holding sentence-ending punctuation that passes the
validity test, or none; the source returns -1 for none. -/
def findSentenceEnd (buffer : List Char) : Option Nat :=
  (List.range buffer.length).find? fun i =>
    isDelim (buffer.getD i ' ') && isValidSentenceEnd buffer i

theorem findSentenceEnd_lt {buffer : List Char} {e : Nat}
    (h : findSentenceEnd buffer = some e) : e < buffer.length := by
  have hmem := List.mem_of_find?_eq_some h
  exact List.mem_range.mp hmem

/-- Append a short sentence to the last accumulated sentence with a
joining space, modelling the in-place string append of the source. -/
def joinLast : List (List Char) → List Char → List (List Char)
  | [], s => [s]
  | [a], s => [a ++ ' ' :: s]
  | a :: b :: rest, s => a :: joinLast (b :: rest) s

/-- One pass of the extraction loop of extractSentences, structured on a
fuel argument so that it computes; each iteration strictly shrinks the
buffer, so fuel equal to the buffer length always suffices (shown below).
The body is the loop of the source: take the first valid boundary, slice
and trim the sentence and drop it from the buffer; emit it when long
enough, join it to the previous sentence of this call when short, or
re-insert it at the front of the buffer and stop when short with nothing
emitted yet. -/
def extractLoopF (minLen : Nat) : Nat → List (List Char) → List Char →
    List (List Char) × List Char
  | 0, acc, buffer => (acc, buffer)
  | fuel + 1, acc, buffer =>
    match findSentenceEnd buffer with
    | none => (acc, buffer)
    | some e =>
      let sentence := trim (buffer.take (e + 1))
      let rest := buffer.drop (e + 1)
      if minLen ≤ sentence.length then
        extractLoopF minLen fuel (acc ++ [sentence]) rest
      else if 0 < acc.length then
        extractLoopF minLen fuel (joinLast acc sentence) rest
      else
        (acc, sentence ++ rest)

/-- The extraction loop, run with sufficient fuel. Returns the emitted
sentences and the final buffer. -/
def extractLoop (minLen : Nat) (acc : List (List Char)) (buffer : List Char) :
    List (List Char) × List Char :=
  extractLoopF minLen buffer.length acc buffer

theorem findSentenceEnd_nil : findSentenceEnd [] = none := rfl

theorem extractLoopF_fuel {minLen : Nat} :
    ∀ {fuel fuel' : Nat} {acc : List (List Char)} {buffer : List Char},
      buffer.length ≤ fuel → buffer.length ≤ fuel' →
      extractLoopF minLen fuel acc buffer = extractLoopF minLen fuel' acc buffer := by
  intro fuel
  induction fuel with
  | zero =>
    intro fuel' acc buffer h h'
    have hb : buffer = [] := List.length_eq_zero.mp (Nat.le_zero.mp h)
    subst hb
    cases fuel' with
    | zero => rfl
    | succ m => simp [extractLoopF, findSentenceEnd_nil]
  | succ n ih =>
    intro fuel' acc buffer h h'
    cases fuel' with
    | zero =>
      have hb : buffer = [] := List.length_eq_zero.mp (Nat.le_zero.mp h')
      subst hb
      simp [extractLoopF, findSentenceEnd_nil]
    | succ m =>
      show extractLoopF minLen (n + 1) acc buffer = extractLoopF minLen (m + 1) acc buffer
      cases he : findSentenceEnd buffer with
      | none => simp [extractLoopF, he]
      | some e =>
        have hrest : (buffer.drop (e + 1)).length ≤ n := by
          have hlt := findSentenceEnd_lt he
          have : (buffer.drop (e + 1)).length < buffer.length := by
            simp only [List.length_drop]
            exact Nat.sub_lt (Nat.lt_of_le_of_lt (Nat.zero_le e) hlt) (Nat.succ_pos e)
          omega
        have hrest' : (buffer.drop (e + 1)).length ≤ m := by
          have hlt := findSentenceEnd_lt he
          have : (buffer.drop (e + 1)).length < buffer.length := by
            simp only [List.length_drop]
            exact Nat.sub_lt (Nat.lt_of_le_of_lt (Nat.zero_le e) hlt) (Nat.succ_pos e)
          omega
        simp only [extractLoopF, he]
        split
        · exact ih hrest hrest'
        · split
          · exact ih hrest hrest'
          · rfl

/-- Unfolding equation for the extraction loop, in the shape of the
source's while loop. -/
theorem extractLoop_eq (minLen : Nat) (acc : List (List Char)) (buffer : List Char) :
    extractLoop minLen acc buffer =
      match findSentenceEnd buffer with
      | none => (acc, buffer)
      | some e =>
        let sentence := trim (buffer.take (e + 1))
        let rest := buffer.drop (e + 1)
        if minLen ≤ sentence.length then
          extractLoop minLen (acc ++ [sentence]) rest
        else if 0 < acc.length then
          extractLoop minLen (joinLast acc sentence) rest
        else
          (acc, sentence ++ rest) := by
  cases he : findSentenceEnd buffer with
  | none =>
    cases hl : buffer.length with
    | zero => simp [extractLoop, hl, extractLoopF]
    | succ n => simp [extractLoop, hl, extractLoopF, he]
  | some e =>
    have hlt := findSentenceEnd_lt he
    cases hl : buffer.length with
    | zero => omega
    | succ n =>
      have hrest : (buffer.drop (e + 1)).length ≤ n := by
        have : (buffer.drop (e + 1)).length < buffer.length := by
          simp only [List.length_drop]
          exact Nat.sub_lt (Nat.lt_of_le_of_lt (Nat.zero_le e) hlt) (Nat.succ_pos e)
        omega
      simp only [extractLoop, hl, extractLoopF, he]
      split
      · exact extractLoopF_fuel hrest (Nat.le_refl _)
      · split
        · exact extractLoopF_fuel hrest (Nat.le_refl _)
        · rfl

/-- addText: append the fragment to the buffer and extract complete
sentences; returns the emitted sentences and the new buffer. -/
def addText (minLen : Nat) (buffer : List Char) (text : List Char) :
    List (List Char) × List Char :=
  extractLoop minLen [] (buffer ++ text)

/-- flush: trim and return any remaining buffered text as a final
sentence, clearing the buffer; none when nothing but whitespace remains. -/
def flushBuf (buffer : List Char) : Option (List Char) × List Char :=
  let remaining := trim buffer
  (if 0 < remaining.length then some remaining else none, [])

end SentenceBuffer

/-- The non-whitespace content of a character list; equality of noWs
images is the spec's equality modulo whitespace. -/
def noWs (l : List Char) : List Char :=
  l.filter fun c => !isWs c

theorem noWs_append (a b : List Char) : noWs (a ++ b) = noWs a ++ noWs b := by
  simp [noWs]

theorem noWs_dropWhile_isWs (l : List Char) :
    noWs (l.dropWhile isWs) = noWs l := by
  induction l with
  | nil => rfl
  | cons c t ih =>
    by_cases h : isWs c = true
    · simp [List.dropWhile_cons, h, noWs, ih]
      simpa [noWs] using ih
    · simp [List.dropWhile_cons, h]

theorem noWs_reverse (l : List Char) : noWs l.reverse = (noWs l).reverse := by
  simp [noWs]

theorem noWs_trimStart (l : List Char) : noWs (trimStart l) = noWs l :=
  noWs_dropWhile_isWs l

theorem noWs_trimEnd (l : List Char) : noWs (trimEnd l) = noWs l := by
  have h := noWs_dropWhile_isWs l.reverse
  have h2 : noWs (trimEnd l) = (noWs (l.reverse.dropWhile isWs)).reverse := by
    simp [trimEnd, noWs_reverse]
  rw [h2, h, noWs_reverse, List.reverse_reverse]

theorem noWs_trim (l : List Char) : noWs (trim l) = noWs l := by
  rw [trim, noWs_trimEnd, noWs_trimStart]

theorem noWs_take_drop (n : Nat) (l : List Char) :
    noWs (l.take n) ++ noWs (l.drop n) = noWs l := by
  rw [← noWs_append, List.take_append_drop]

theorem length_dropWhile_le (p : Char → Bool) (l : List Char) :
    (l.dropWhile p).length ≤ l.length := by
  induction l with
  | nil => simp
  | cons c t ih =>
    by_cases h : p c = true
    · simp [List.dropWhile_cons, h]
      omega
    · simp [List.dropWhile_cons, h]

theorem trim_length_le (l : List Char) : (trim l).length ≤ l.length := by
  have h1 : (trimStart l).length ≤ l.length := length_dropWhile_le _ l
  have h2 : (trimEnd (trimStart l)).length ≤ (trimStart l).length := by
    have h3 := length_dropWhile_le isWs (trimStart l).reverse
    simpa [trimEnd] using h3
  exact Nat.le_trans h2 h1

namespace SentenceBuffer

theorem noWs_joinLast (acc : List (List Char)) (s : List Char) :
    noWs (joinLast acc s).flatten = noWs (acc.flatten ++ s) := by
  induction acc with
  | nil => simp [joinLast]
  | cons a rest ih =>
    cases rest with
    | nil =>
      simp [joinLast, noWs_append, noWs, List.filter_cons,
        show (!isWs ' ') = false from rfl]
    | cons b r =>
      simp only [joinLast, List.flatten_cons, noWs_append, ih]
      simp [noWs_append]

/-- Content preservation for one extraction pass: the non-whitespace
characters of emitted sentences plus the remaining buffer are exactly
those of the accumulated sentences plus the incoming buffer. -/
theorem extractLoop_noWs (minLen : Nat) :
    ∀ (n : Nat) (buffer : List Char) (acc : List (List Char)), buffer.length ≤ n →
      noWs ((extractLoop minLen acc buffer).1.flatten ++ (extractLoop minLen acc buffer).2)
        = noWs (acc.flatten ++ buffer) := by
  intro n
  induction n with
  | zero =>
    intro buffer acc h
    have hb : buffer = [] := List.length_eq_zero.mp (Nat.le_zero.mp h)
    subst hb
    rw [extractLoop_eq]
    simp [findSentenceEnd_nil]
  | succ n ih =>
    intro buffer acc h
    rw [extractLoop_eq]
    cases he : findSentenceEnd buffer with
    | none => rfl
    | some e =>
      have hlt := findSentenceEnd_lt he
      have hrest : (buffer.drop (e + 1)).length ≤ n := by
        have : (buffer.drop (e + 1)).length < buffer.length := by
          simp only [List.length_drop]
          exact Nat.sub_lt (Nat.lt_of_le_of_lt (Nat.zero_le e) hlt) (Nat.succ_pos e)
        omega
      have hsent : noWs (trim (buffer.take (e + 1))) ++ noWs (buffer.drop (e + 1))
          = noWs buffer := by
        rw [noWs_trim, noWs_take_drop]
      simp only []
      split
      · rw [ih _ _ hrest]
        simp only [List.flatten_append, List.flatten_cons, List.flatten_nil,
          List.append_nil, noWs_append]
        rw [← hsent]
        simp [noWs_append, List.append_assoc]
      · split
        · rw [ih _ _ hrest]
          rw [noWs_append, noWs_joinLast, noWs_append, noWs_append, ← hsent]
          simp [List.append_assoc]
        · simp only []
          rw [noWs_append, noWs_append, noWs_append, ← hsent]

theorem addText_noWs (minLen : Nat) (buffer text : List Char) :
    noWs ((addText minLen buffer text).1.flatten ++ (addText minLen buffer text).2)
      = noWs (buffer ++ text) := by
  have h := extractLoop_noWs minLen (buffer ++ text).length (buffer ++ text) []
    (Nat.le_refl _)
  simpa [addText] using h

end SentenceBuffer

/-- The per-turn fold over incoming text fragments: feed each fragment to
addText in order, collecting all emitted sentences and threading the
buffer, exactly as the server's streaming loop does. -/
def segLoop (minLen : Nat) : List (List Char) → List Char →
    List (List Char) × List Char
  | [], buf => ([], buf)
  | d :: ds, buf =>
    let step1 := SentenceBuffer.addText minLen buf d
    let step2 := segLoop minLen ds step1.2
    (step1.1 ++ step2.1, step2.2)

/-- The sentence, if any, that flush would emit from the final buffer. -/
def flushList (buf : List Char) : List (List Char) :=
  match (SentenceBuffer.flushBuf buf).1 with
  | some r => [r]
  | none => []

/-- All sentences a full turn produces: those emitted during addText
calls, then the flush remainder. -/
def segmentAll (minLen : Nat) (deltas : List (List Char)) : List (List Char) :=
  (segLoop minLen deltas []).1 ++ flushList (segLoop minLen deltas []).2

theorem noWs_flushList (buf : List Char) :
    noWs (flushList buf).flatten = noWs buf := by
  by_cases h : 0 < (trim buf).length
  · simp [flushList, SentenceBuffer.flushBuf, h, noWs_trim]
  · have hz : (trim buf).length = 0 := Nat.eq_zero_of_not_pos h
    have ht : trim buf = [] := List.length_eq_zero.mp hz
    have hbuf : noWs buf = [] := by rw [← noWs_trim, ht]; rfl
    have hfl : flushList buf = [] := by
      simp [flushList, SentenceBuffer.flushBuf, h]
    rw [hfl, hbuf]
    rfl


theorem segLoop_noWs (minLen : Nat) (ds : List (List Char)) :
    ∀ buf : List Char,
      noWs ((segLoop minLen ds buf).1.flatten ++ (segLoop minLen ds buf).2)
        = noWs (buf ++ ds.flatten) := by
  induction ds with
  | nil => intro buf; simp [segLoop]
  | cons d rest ih =>
    intro buf
    have h1 := SentenceBuffer.addText_noWs minLen buf d
    rw [noWs_append] at h1
    calc noWs ((segLoop minLen (d :: rest) buf).1.flatten
            ++ (segLoop minLen (d :: rest) buf).2)
        = noWs ((SentenceBuffer.addText minLen buf d).1.flatten)
            ++ (noWs ((segLoop minLen rest (SentenceBuffer.addText minLen buf d).2).1.flatten)
              ++ noWs ((segLoop minLen rest (SentenceBuffer.addText minLen buf d).2).2)) := by
          simp [segLoop, noWs_append, List.flatten_append, List.append_assoc]
      _ = noWs ((SentenceBuffer.addText minLen buf d).1.flatten)
            ++ noWs ((SentenceBuffer.addText minLen buf d).2 ++ rest.flatten) := by
          rw [← noWs_append, ih]
      _ = noWs (buf ++ (d :: rest).flatten) := by
          rw [noWs_append (SentenceBuffer.addText minLen buf d).2, ← List.append_assoc, h1]
          simp [noWs_append, List.append_assoc]

/-- C5: for any sequence of addText calls followed by a single flush, the
concatenation of all emitted sentence texts equals the concatenation of
all input fragments modulo whitespace (the inserted join spaces are
whitespace, so they vanish under noWs): no non-whitespace character is
dropped, duplicated or reordered. -/
theorem claim_C5_content_preserved (minLen : Nat) (frags : List (List Char)) :
    noWs (segmentAll minLen frags).flatten = noWs frags.flatten := by
  have h := segLoop_noWs minLen frags []
  rw [List.nil_append, noWs_append] at h
  rw [segmentAll, List.flatten_append, noWs_append, noWs_flushList]
  exact h

/-- The full C4 test input from the spec, as a character list. -/
def c4Input : List Char :=
  "Dr. Smith arrived. It was 3.5 miles. He said... then left. Good.".toList

/-- C4 counterexample: on the test input the segmenter does not emit the
three claimed sentences and flush does not return the final short
sentence alone; instead addText emits nothing (the first sentence is
shorter than the minimum length of 25 used by the route, so extraction
defers at the first boundary) and flush returns the whole input as one
sentence. -/
theorem claim_C4_counterexample :
    (SentenceBuffer.addText 25 [] c4Input).1 = []
      ∧ (SentenceBuffer.flushBuf (SentenceBuffer.addText 25 [] c4Input).2).1
          = some c4Input
      ∧ ¬ ((SentenceBuffer.flushBuf (SentenceBuffer.addText 25 [] c4Input).2).1
          = some "Good.".toList) := by
  refine ⟨by decide, by decide, by decide⟩

/-- C4 amended: on the fully buffered test input the boundary detector
never treats the period of the abbreviation at position 2, the decimal
point at position 27, or the ellipsis periods at positions 44, 45 and 46
as valid sentence ends, and does treat the positions 17, 35, 57 and 63
(after arrived., miles., left. and Good.) as valid; but because the first
sentence (18 characters) is below the minimum sentence length, extraction
defers at the first boundary, addText emits nothing and flush returns the
entire input as a single sentence rather than the final short sentence
alone. The same holds for the default minimum length 20. -/
theorem claim_C4_amended :
    SentenceBuffer.isValidSentenceEnd c4Input 2 = false
      ∧ SentenceBuffer.isValidSentenceEnd c4Input 27 = false
      ∧ SentenceBuffer.isValidSentenceEnd c4Input 44 = false
      ∧ SentenceBuffer.isValidSentenceEnd c4Input 45 = false
      ∧ SentenceBuffer.isValidSentenceEnd c4Input 46 = false
      ∧ SentenceBuffer.isValidSentenceEnd c4Input 17 = true
      ∧ SentenceBuffer.isValidSentenceEnd c4Input 35 = true
      ∧ SentenceBuffer.isValidSentenceEnd c4Input 57 = true
      ∧ SentenceBuffer.isValidSentenceEnd c4Input 63 = true
      ∧ SentenceBuffer.findSentenceEnd c4Input = some 17
      ∧ SentenceBuffer.addText 25 [] c4Input = ([], c4Input)
      ∧ SentenceBuffer.addText 20 [] c4Input = ([], c4Input)
      ∧ (SentenceBuffer.flushBuf c4Input).1 = some c4Input := by
  refine ⟨by decide, by decide, by decide, by decide, by decide, by decide, by decide,
    by decide, by decide, by decide, by decide, by decide, by decide⟩

/-- C7 counterexample: a delimiter with zero characters following it in
the buffer is treated as a valid sentence end during addText (the source
check rejects only the case of exactly one following character), so the
sentence closes before the stream has ended, contradicting the claim that
fewer than two following characters always defer. -/
theorem claim_C7_counterexample :
    SentenceBuffer.isValidSentenceEnd "Hello there, my friends.".toList 23 = true
      ∧ SentenceBuffer.addText 20 [] "Hello there, my friends.".toList
          = (["Hello there, my friends.".toList], []) := by
  refine ⟨by decide, by decide⟩

/-- C7 amended: during addText a candidate delimiter with exactly one
character following it in the buffer is never treated as a valid sentence
boundary — the segmenter waits for more text; with zero characters
following (delimiter at the end of the buffer) the position is treated as
a candidate sentence end, so a buffered sentence can close before flush. -/
theorem claim_C7_amended (buffer : List Char) (pos : Nat)
    (h : (buffer.drop (pos + 1)).length = 1) :
    SentenceBuffer.isValidSentenceEnd buffer pos = false := by
  simp only [SentenceBuffer.isValidSentenceEnd, h]
  norm_num

theorem claim_C7_amended_witness :
    ("Hey. ".toList.drop 4).length = 1
      ∧ SentenceBuffer.isValidSentenceEnd "Hey. ".toList 3 = false :=
  ⟨by decide, claim_C7_amended "Hey. ".toList 3 (by decide)⟩


theorem find?_range'_le (pred : Nat → Bool) :
    ∀ n s p : Nat, s ≤ p → p < s + n → pred p = true →
      ∃ e, (List.range' s n).find? pred = some e ∧ e ≤ p := by
  intro n
  induction n with
  | zero => intro s p h1 h2 _; omega
  | succ m ih =>
    intro s p h1 h2 hp
    rw [List.range'_succ]
    cases hs : pred s with
    | false =>
      have hsp : s ≠ p := by
        intro heq
        rw [heq, hp] at hs
        cases hs
      obtain ⟨e, he, hle⟩ := ih (s + 1) p (by omega) (by omega) hp
      refine ⟨e, ?_, hle⟩
      rw [List.find?_cons_of_neg _ (by simp [hs]), he]
    | true =>
      exact ⟨s, List.find?_cons_of_pos _ hs, h1⟩

/-- If some position at or before p passes the boundary test, the first
valid boundary of the buffer is at or before p. -/
theorem findSentenceEnd_le_of_valid {buffer : List Char} {p : Nat}
    (hlen : p < buffer.length)
    (hval : (SentenceBuffer.isDelim (buffer.getD p ' ')
        && SentenceBuffer.isValidSentenceEnd buffer p) = true) :
    ∃ e, SentenceBuffer.findSentenceEnd buffer = some e ∧ e ≤ p := by
  have h := find?_range'_le
    (fun i => SentenceBuffer.isDelim (buffer.getD i ' ')
      && SentenceBuffer.isValidSentenceEnd buffer i)
    buffer.length 0 p (Nat.zero_le p) (by omega) hval
  rw [SentenceBuffer.findSentenceEnd, List.range_eq_range']
  exact h

/-- First fragment for the concrete deferral scenario of C10. -/
def c10Frag1 : List Char := "Hi there. Nice to see you today, friend.".toList

/-- Second fragment for the concrete deferral scenario of C10: it
contains a further complete sentence longer than the minimum length. -/
def c10Frag2 : List Char := " Great weather today, right? It is absolutely wonderful.".toList

/-- C10: once an addText call defers a short leading sentence, any
addText call whose buffer still has a valid boundary at or before the
original delimiter (for instance because the following text starts with
an uppercase letter) again emits nothing and re-inserts the trimmed slice
up to the first boundary; the general statement shows the empty emission
whenever the first boundary closes a slice shorter than
minSentenceLength, and the concrete scenario shows two consecutive
deferring calls — the second carrying a complete long sentence — with all
accumulated text released only by flush, as a single sentence. -/
theorem claim_C10_deferral_jam :
    (∀ (minLen : Nat) (buf t : List Char) (p : Nat),
        p < buf.length → p + 1 < minLen →
        (SentenceBuffer.isDelim ((buf ++ t).getD p ' ')
          && SentenceBuffer.isValidSentenceEnd (buf ++ t) p) = true →
        (SentenceBuffer.addText minLen buf t).1 = [])
      ∧ SentenceBuffer.addText 20 [] c10Frag1 = ([], c10Frag1)
      ∧ SentenceBuffer.addText 20 c10Frag1 c10Frag2 = ([], c10Frag1 ++ c10Frag2)
      ∧ (SentenceBuffer.flushBuf (c10Frag1 ++ c10Frag2)).1
          = some (c10Frag1 ++ c10Frag2) := by
  refine ⟨?_, by decide, by decide, by decide⟩
  intro minLen buf t p hp hshort hval
  have hplen : p < (buf ++ t).length := by
    rw [List.length_append]
    omega
  obtain ⟨e, he, hle⟩ := findSentenceEnd_le_of_valid hplen hval
  rw [SentenceBuffer.addText, SentenceBuffer.extractLoop_eq, he]
  have hsent : (trim ((buf ++ t).take (e + 1))).length < minLen := by
    have h1 : (trim ((buf ++ t).take (e + 1))).length ≤ ((buf ++ t).take (e + 1)).length :=
      trim_length_le _
    have h2 : ((buf ++ t).take (e + 1)).length ≤ e + 1 := by
      simp [List.length_take]
    omega
  simp only [List.length_nil]
  rw [if_neg (by omega)]
  rw [if_neg (by omega)]

theorem claim_C10_deferral_jam_witness :
    (SentenceBuffer.addText 20 "Hi there.".toList " Nice to see you all today.".toList).1
      = [] :=
  claim_C10_deferral_jam.1 20 "Hi there.".toList " Nice to see you all today.".toList 8
    (by decide) (by decide) (by decide)

/-- An entry of the client audio queue: optional synthesized payload, the
sentence text kept for the fallback voice, the playback index, and the
flag forcing the fallback voice. -/
structure AudioQueueItem where
  payload : Option (List Char)
  text : List Char
  index : Nat
  useFallback : Bool
deriving DecidableEq

/-- Remove the first queue entry whose index equals k, returning it and
the remaining queue; models findIndex followed by splice in the drain
loop. -/
def extractItem (k : Nat) : List AudioQueueItem →
    Option (AudioQueueItem × List AudioQueueItem)
  | [] => none
  | it :: rest =>
    if it.index = k then some (it, rest)
    else match extractItem k rest with
      | none => none
      | some (f, r) => some (f, it :: r)

theorem extractItem_length {k : Nat} :
    ∀ {q : List AudioQueueItem} {it : AudioQueueItem} {rest : List AudioQueueItem},
      extractItem k q = some (it, rest) → rest.length + 1 = q.length := by
  intro q
  induction q with
  | nil => intro it rest h; cases h
  | cons a q' ih =>
    intro it rest h
    by_cases ha : a.index = k
    · simp [extractItem, ha] at h
      rw [← h.2]
      simp
    · simp only [extractItem, if_neg ha] at h
      cases he : extractItem k q' with
      | none => rw [he] at h; cases h
      | some pr =>
        rw [he] at h
        cases h
        have := ih he
        simp
        omega

/-- The drain loop of processAudioQueue: while the queue is non-empty,
find the item carrying the next expected index, remove it, bump the
counter and play it to completion before considering the next index; each
played item appears in the result in play order. When the expected index
is absent the source waits for it to arrive — the recursion stops there
and reports the remaining queue (the enclosing state model marks the loop
as still running in that case). Returns the play sequence, the final next
expected index, and the unplayed remainder. -/
def drainPlayF : Nat → List AudioQueueItem → Nat →
    List AudioQueueItem × Nat × List AudioQueueItem
  | 0, queue, k => ([], k, queue)
  | fuel + 1, queue, k =>
    match extractItem k queue with
    | none => ([], k, queue)
    | some (it, rest) =>
      let out := drainPlayF fuel rest (k + 1)
      (it :: out.1, out.2.1, out.2.2)

/-- The drain loop run with sufficient fuel (each successful extraction
removes one queue entry, so the queue length bounds the iterations). -/
def drainPlay (queue : List AudioQueueItem) (nextIdx : Nat) :
    List AudioQueueItem × Nat × List AudioQueueItem :=
  drainPlayF queue.length queue nextIdx

theorem extractItem_nil (k : Nat) : extractItem k [] = none := rfl

theorem drainPlayF_fuel :
    ∀ {fuel fuel' : Nat} {queue : List AudioQueueItem} {k : Nat},
      queue.length ≤ fuel → queue.length ≤ fuel' →
      drainPlayF fuel queue k = drainPlayF fuel' queue k := by
  intro fuel
  induction fuel with
  | zero =>
    intro fuel' queue k h h'
    have hq : queue = [] := List.length_eq_zero.mp (Nat.le_zero.mp h)
    subst hq
    cases fuel' with
    | zero => rfl
    | succ m => simp [drainPlayF, extractItem_nil]
  | succ n ih =>
    intro fuel' queue k h h'
    cases fuel' with
    | zero =>
      have hq : queue = [] := List.length_eq_zero.mp (Nat.le_zero.mp h')
      subst hq
      simp [drainPlayF, extractItem_nil]
    | succ m =>
      show drainPlayF (n + 1) queue k = drainPlayF (m + 1) queue k
      cases he : extractItem k queue with
      | none => simp [drainPlayF, he]
      | some pr =>
        obtain ⟨it, rest⟩ := pr
        have hlen := extractItem_length he
        have h1 : rest.length ≤ n := by omega
        have h2 : rest.length ≤ m := by omega
        simp only [drainPlayF, he]
        rw [ih h1 h2]

theorem drainPlay_found {queue rest : List AudioQueueItem} {it : AudioQueueItem}
    {k : Nat} (h : extractItem k queue = some (it, rest)) :
    drainPlay queue k
      = (it :: (drainPlay rest (k + 1)).1, (drainPlay rest (k + 1)).2.1,
          (drainPlay rest (k + 1)).2.2) := by
  have hlen := extractItem_length h
  cases hq : queue.length with
  | zero => omega
  | succ n =>
    have hr : rest.length ≤ n := by omega
    simp only [drainPlay, hq, drainPlayF, h]
    rw [drainPlayF_fuel hr (Nat.le_refl rest.length)]

theorem drainPlay_none {queue : List AudioQueueItem} {k : Nat}
    (h : extractItem k queue = none) : drainPlay queue k = ([], k, queue) := by
  cases hq : queue.length with
  | zero =>
    have : queue = [] := List.length_eq_zero.mp hq
    subst this
    rfl
  | succ n => simp only [drainPlay, hq, drainPlayF, h]

theorem extractItem_of_mem {k : Nat} :
    ∀ {q : List AudioQueueItem}, k ∈ q.map (fun it => it.index) →
      ∃ it rest, extractItem k q = some (it, rest) ∧ it.index = k
        ∧ rest.map (fun x => x.index) = (q.map (fun x => x.index)).erase k := by
  intro q
  induction q with
  | nil => intro h; cases h
  | cons a q' ih =>
    intro h
    by_cases ha : a.index = k
    · refine ⟨a, q', ?_, ha, ?_⟩
      · simp [extractItem, ha]
      · rw [List.map_cons, ha, List.erase_cons_head]
    · have hk : k ∈ q'.map fun x => x.index := by
        rcases List.mem_cons.mp h with h1 | h2
        · exact absurd h1.symm ha
        · exact h2
      obtain ⟨it, rest, he, hidx, hmap⟩ := ih hk
      refine ⟨it, a :: rest, ?_, hidx, ?_⟩
      · simp [extractItem, ha, he]
      · rw [List.map_cons, List.map_cons, hmap,
          List.erase_cons_tail (by simpa using ha)]

/-- Under the assumption that the queue holds exactly the indices k to
k + n - 1 in some order, the drain loop plays all of them, in increasing
index order, and empties the queue. -/
theorem drainPlay_perm :
    ∀ (n k : Nat) (items : List AudioQueueItem),
      (items.map fun it => it.index).Perm (List.range' k n) →
      ((drainPlay items k).1.map fun it => it.index) = List.range' k n
        ∧ (drainPlay items k).2.2 = [] := by
  intro n
  induction n with
  | zero =>
    intro k items hperm
    have h0 : items.map (fun it => it.index) = [] := List.Perm.eq_nil hperm
    have hitems : items = [] := by
      cases items with
      | nil => rfl
      | cons a t => cases h0
    subst hitems
    rw [drainPlay_none (extractItem_nil k)]
    exact ⟨rfl, rfl⟩
  | succ m ih =>
    intro k items hperm
    rw [List.range'_succ] at hperm
    have hk : k ∈ items.map fun it => it.index :=
      hperm.mem_iff.mpr (List.mem_cons_self k _)
    obtain ⟨it, rest, he, hidx, hmap⟩ := extractItem_of_mem hk
    have hrest : (rest.map fun x => x.index).Perm (List.range' (k + 1) m) := by
      rw [hmap]
      have := hperm.erase k
      rwa [List.erase_cons_head] at this
    obtain ⟨ih1, ih2⟩ := ih (k + 1) rest hrest
    rw [drainPlay_found he]
    constructor
    · rw [List.map_cons, hidx, ih1, List.range'_succ]
    · exact ih2

/-- When the queue already holds items in strictly increasing index order
starting at k, the drain loop plays exactly the queue, front to back. -/
theorem drainPlay_ordered :
    ∀ (items : List AudioQueueItem) (k : Nat),
      (items.map fun it => it.index) = List.range' k items.length →
      drainPlay items k = (items, k + items.length, []) := by
  intro items
  induction items with
  | nil => intro k _; rw [drainPlay_none (extractItem_nil k)]; rfl
  | cons a t ih =>
    intro k h
    rw [List.length_cons, List.range'_succ, List.map_cons] at h
    have ha : a.index = k := (List.cons_eq_cons.mp h).1
    have ht : (t.map fun x => x.index) = List.range' (k + 1) t.length :=
      (List.cons_eq_cons.mp h).2
    have he : extractItem k (a :: t) = some (a, t) := by
      simp [extractItem, ha]
    rw [drainPlay_found he, ih (k + 1) ht]
    simp [List.length_cons]
    omega

/-- C1: for every queue holding audio items with indices 0 to n - 1 in an
arbitrary arrival order, the drain loop of processAudioQueue plays them
in exactly the order 0, 1, ..., n - 1 and leaves nothing unplayed; the
loop plays each extracted item to completion before looking for the next
index, so the play sequence is sequential — at most one item plays at any
instant and no two items overlap. -/
theorem claim_C1_plays_in_order (items : List AudioQueueItem) (n : Nat)
    (h : (items.map fun it => it.index).Perm (List.range n)) :
    ((drainPlay items 0).1.map fun it => it.index) = List.range n
      ∧ (drainPlay items 0).2.2 = [] := by
  rw [List.range_eq_range'] at h ⊢
  exact drainPlay_perm n 0 items h

/-- Concrete items used by witnesses and counterexamples. -/
def itemA : AudioQueueItem :=
  { payload := some "dataA".toList, text := "first".toList, index := 0, useFallback := false }

def itemB : AudioQueueItem :=
  { payload := some "dataB".toList, text := "second".toList, index := 1, useFallback := false }

def itemC : AudioQueueItem :=
  { payload := none, text := "third".toList, index := 2, useFallback := true }

theorem claim_C1_plays_in_order_witness :
    (([itemC, itemA, itemB].map fun it => it.index).Perm (List.range 3))
      ∧ ((drainPlay [itemC, itemA, itemB] 0).1.map fun it => it.index) = List.range 3
      ∧ (drainPlay [itemC, itemA, itemB] 0).2.2 = [] := by
  refine ⟨by decide, ?_⟩
  exact claim_C1_plays_in_order [itemC, itemA, itemB] 3 (by decide)

/-- The conversation states of the client page. -/
inductive ConvState where
  | loading
  | ready
  | aiSpeaking
  | listening
  | processing
  | interrupted
  | ended
  | fatalError
deriving DecidableEq

/-- Client-side mutable state of the conversation page: the state
variable, the current audio element if one is attached, whether a
fallback utterance is registered, the audio queue, the single-flight
drain flag, the next expected playback index, whether voice-activity
capture is running, the speaking indicator, whether the current response
stream has finished being read, and whether a barge-in grace timer is
pending. -/
structure ClientState where
  convState : ConvState
  currentAudio : Option (List Char)
  speechSynth : Bool
  queue : List AudioQueueItem
  isPlaying : Bool
  nextExpectedIndex : Nat
  vadActive : Bool
  isSpeaking : Bool
  streamEnded : Bool
  graceTimer : Bool
deriving DecidableEq

/-- stopAudio: pause and drop the current audio element, cancel any
fallback utterance, clear the audio queue and clear the drain flag. The
next expected index is untouched, and no generation counter exists. -/
def stopAudio (s : ClientState) : ClientState :=
  { s with currentAudio := none, speechSynth := false, queue := [], isPlaying := false }

/-- Run the drain loop to quiescence after an enqueue: play every
consecutively available item starting at the next expected index
(playback is modelled as instantaneous and strictly sequential, matching
the awaited play calls). When the queue empties the loop exits, the drain
flag clears, and — exactly as the resume check at the end of
processAudioQueue — if the state is still aiSpeaking the client switches
to listening and restarts capture. When the next index is missing the
loop keeps waiting, modelled by the drain flag staying set. -/
def drainRun (s : ClientState) : ClientState :=
  let out := drainPlay s.queue s.nextExpectedIndex
  let s1 := if out.1.isEmpty then
      { s with queue := out.2.2, nextExpectedIndex := out.2.1 }
    else
      { s with queue := out.2.2, nextExpectedIndex := out.2.1
               currentAudio := none, speechSynth := false }
  if out.2.2.isEmpty then
    let s2 := { s1 with isPlaying := false }
    if s2.convState = ConvState.aiSpeaking then
      { s2 with convState := ConvState.listening, vadActive := true }
    else s2
  else
    { s1 with isPlaying := true }

/-- enqueueAudio: push the item at the back of the queue and kick the
drain loop. -/
def enqueueAudio (s : ClientState) (it : AudioQueueItem) : ClientState :=
  drainRun { s with queue := s.queue ++ [it] }

/-- External events driving the client model: the start of sendAudio, the
server-sent events of the stream, the end of the stream, the completion
of the wait-for-audio loop in sendAudio, an exception landing in
sendAudio's catch block (for example a mid-stream error event thrown by
the event switch), a voice-activity speech start, and the expiry of the
barge-in grace timer. -/
inductive ClientEvent where
  | turnStart
  | transcriptEvt
  | audioEvt (it : AudioQueueItem)
  | ttsErrorEvt (text : List Char) (idx : Nat)
  | streamDone
  | finishTurn
  | errorCaught
  | speechStart
  | graceElapsed
deriving DecidableEq

/-- One step of the client model. turnStart mirrors the start of
sendAudio (state processing, reset index and queue, pause capture);
transcriptEvt sets aiSpeaking; audio and tts_error events enqueue an item
(the tts_error one with the fallback flag) and run the drain; streamDone
records the end of the response stream; finishTurn is the transition
after sendAudio's wait loop, which requires the stream to have ended, the
drain to be idle and the queue to be empty before re-enabling capture;
errorCaught is sendAudio's catch block, which switches to listening and
restarts capture unconditionally — without stopping audio, clearing the
queue or waiting for the drain loop; speechStart interrupts a speaking AI
by stopping audio, entering interrupted and arming the grace timer;
graceElapsed moves an armed timer to listening. -/
def clientStep (s : ClientState) : ClientEvent → ClientState
  | ClientEvent.turnStart =>
    { s with convState := ConvState.processing, nextExpectedIndex := 0
             queue := [], vadActive := false, streamEnded := false }
  | ClientEvent.transcriptEvt => { s with convState := ConvState.aiSpeaking }
  | ClientEvent.audioEvt it => enqueueAudio s it
  | ClientEvent.ttsErrorEvt t i =>
    enqueueAudio s { payload := none, text := t, index := i, useFallback := true }
  | ClientEvent.streamDone => { s with streamEnded := true }
  | ClientEvent.finishTurn =>
    if s.streamEnded ∧ s.isPlaying = false ∧ s.queue = [] then
      { s with convState := ConvState.listening, vadActive := true }
    else s
  | ClientEvent.errorCaught =>
    { s with convState := ConvState.listening, vadActive := true }
  | ClientEvent.speechStart =>
    if s.convState = ConvState.aiSpeaking then
      { stopAudio s with isSpeaking := true, convState := ConvState.interrupted
                         graceTimer := true }
    else { s with isSpeaking := true }
  | ClientEvent.graceElapsed =>
    if s.graceTimer then
      { s with convState := ConvState.listening, graceTimer := false }
    else s

/-- Fold a list of events over the client model. -/
def runTrace (s : ClientState) (evts : List ClientEvent) : ClientState :=
  evts.foldl clientStep s

/-- The idle client state right before a user utterance: listening with
capture on, empty queue, nothing playing. -/
def idleClient : ClientState :=
  { convState := ConvState.listening, currentAudio := none, speechSynth := false
    queue := [], isPlaying := false, nextExpectedIndex := 0, vadActive := true
    isSpeaking := false, streamEnded := false, graceTimer := false }

/-- If running the drain loop turned capture on, the loop must have ended
with an empty queue, an idle drain flag, and the listening state. -/
theorem drainRun_vad {s : ClientState} (h0 : s.vadActive = false)
    (h1 : (drainRun s).vadActive = true) :
    (drainRun s).queue = [] ∧ (drainRun s).isPlaying = false
      ∧ (drainRun s).convState = ConvState.listening := by
  by_cases hp : (drainPlay s.queue s.nextExpectedIndex).1.isEmpty <;>
    by_cases hq : (drainPlay s.queue s.nextExpectedIndex).2.2.isEmpty <;>
      by_cases hc : s.convState = ConvState.aiSpeaking <;>
        simp_all [drainRun, List.isEmpty_iff]

/-- C2 amended: the source has no single playback-complete condition as
claimed. A transition of the client model that re-enables capture is
either sendAudio's catch path — which switches to listening and restarts
capture unconditionally, without clearing the queue or waiting for the
drain loop — or it leaves an empty pending queue, an idle drain loop and
the listening state; and even then the stream need not have ended: the
drain loop's resume check switches to listening as soon as the queue
empties while the state is aiSpeaking (the counterexample shows both the
resume path firing with the stream still open and the catch path firing
with items queued and the drain loop running); only the sendAudio
completion path additionally waits for the stream end. -/
theorem claim_C2_amended (s : ClientState) (e : ClientEvent)
    (h0 : s.vadActive = false) (h1 : (clientStep s e).vadActive = true) :
    e = ClientEvent.errorCaught
      ∨ ((clientStep s e).queue = [] ∧ (clientStep s e).isPlaying = false
        ∧ (clientStep s e).convState = ConvState.listening) := by
  cases e with
  | turnStart => simp [clientStep] at h1
  | transcriptEvt => simp [clientStep, h0] at h1
  | audioEvt it =>
    have h0' : (ClientState.vadActive { s with queue := s.queue ++ [it] }) = false := h0
    exact Or.inr (drainRun_vad h0' h1)
  | ttsErrorEvt t i =>
    have h0' : (ClientState.vadActive
        { s with queue := s.queue
            ++ [{ payload := none, text := t, index := i, useFallback := true }] })
          = false := h0
    exact Or.inr (drainRun_vad h0' h1)
  | streamDone => simp [clientStep, h0] at h1
  | finishTurn =>
    by_cases hg : s.streamEnded ∧ s.isPlaying = false ∧ s.queue = []
    · exact Or.inr (by simp [clientStep, hg])
    · simp [clientStep, hg, h0] at h1
  | errorCaught => exact Or.inl rfl
  | speechStart =>
    by_cases hc : s.convState = ConvState.aiSpeaking <;>
      simp [clientStep, hc, stopAudio, h0] at h1
  | graceElapsed =>
    by_cases hg : s.graceTimer <;> simp [clientStep, hg, h0] at h1

/-- A client state in the middle of a turn: the AI is speaking, capture
is paused, nothing queued yet, stream still open. -/
def midTurnState : ClientState :=
  { idleClient with convState := ConvState.aiSpeaking, vadActive := false }

theorem claim_C2_amended_witness :
    midTurnState.vadActive = false
      ∧ (clientStep midTurnState (ClientEvent.audioEvt itemA)).vadActive = true
      ∧ (ClientEvent.audioEvt itemA = ClientEvent.errorCaught
        ∨ ((clientStep midTurnState (ClientEvent.audioEvt itemA)).queue = []
          ∧ (clientStep midTurnState (ClientEvent.audioEvt itemA)).isPlaying = false
          ∧ (clientStep midTurnState (ClientEvent.audioEvt itemA)).convState
              = ConvState.listening)) :=
  ⟨by decide, by decide,
    claim_C2_amended midTurnState (ClientEvent.audioEvt itemA) (by decide) (by decide)⟩

/-- Events of the C2 counterexample: a turn starts, the transcript event
arrives, the first audio item arrives and plays to completion before the
second item or the stream end is seen. -/
def c2Trace : List ClientEvent :=
  [ClientEvent.turnStart, ClientEvent.transcriptEvt, ClientEvent.audioEvt itemA]

/-- Events of the C2 error-path counterexample: a turn starts, the
transcript arrives, item 1 arrives before item 0 so the drain loop is
left waiting with the item queued, and then an exception lands in
sendAudio's catch block. -/
def c2ErrTrace : List ClientEvent :=
  [ClientEvent.turnStart, ClientEvent.transcriptEvt, ClientEvent.audioEvt itemB,
   ClientEvent.errorCaught]

/-- C2 counterexample, refuting the claim on two paths. Resume path:
after the first audio item finishes playing with the queue momentarily
empty, the client re-enables capture and moves to listening although the
response stream has not ended — the second item (still en route) arrives
afterwards and is played anyway. Catch path: an exception during the
stream re-enables capture and moves to listening while an item is still
queued, the drain loop is still running, and the stream has not ended.
So the playback-complete transition requires neither the stream to have
finished nor even an empty queue, contradicting the claim. -/
theorem claim_C2_counterexample :
    ((runTrace idleClient c2Trace).vadActive = true
      ∧ (runTrace idleClient c2Trace).convState = ConvState.listening
      ∧ (runTrace idleClient c2Trace).streamEnded = false
      ∧ (runTrace idleClient (c2Trace ++ [ClientEvent.audioEvt itemB])).nextExpectedIndex
          = 2)
      ∧ ((runTrace idleClient c2ErrTrace).vadActive = true
        ∧ (runTrace idleClient c2ErrTrace).convState = ConvState.listening
        ∧ (runTrace idleClient c2ErrTrace).queue = [itemB]
        ∧ (runTrace idleClient c2ErrTrace).isPlaying = true
        ∧ (runTrace idleClient c2ErrTrace).streamEnded = false) := by
  refine ⟨⟨by decide, by decide, by decide, by decide⟩,
    by decide, by decide, by decide, by decide, by decide⟩

/-- C3 amended: stopAudio immediately halts in-flight playback (the audio
element is dropped and the fallback utterance cancelled), clears the
pending queue and the drain flag; but it keeps nextExpectedIndex
unchanged (that counter is reset only at the start of the next sendAudio
turn), no generation token exists, and an item arriving after the
cancellation is still enqueued rather than discarded. -/
theorem claim_C3_amended (s : ClientState) :
    (stopAudio s).currentAudio = none ∧ (stopAudio s).speechSynth = false
      ∧ (stopAudio s).queue = [] ∧ (stopAudio s).isPlaying = false
      ∧ (stopAudio s).nextExpectedIndex = s.nextExpectedIndex
      ∧ ∀ it : AudioQueueItem, it.index ≠ s.nextExpectedIndex →
          (clientStep (stopAudio s) (ClientEvent.audioEvt it)).queue = [it] := by
  refine ⟨rfl, rfl, rfl, rfl, rfl, ?_⟩
  intro it hit
  have he : extractItem s.nextExpectedIndex [it] = none := by
    simp [extractItem, hit, extractItem_nil]
  have hd := drainPlay_none he
  simp [clientStep, enqueueAudio, drainRun, stopAudio, hd]

/-- A client state mid-playback: item 0 and 1 already played (the next
expected index is 2), an audio element attached, a fallback utterance
registered, one item pending. -/
def midPlaybackState : ClientState :=
  { convState := ConvState.aiSpeaking, currentAudio := some "dataA".toList
    speechSynth := true, queue := [itemC], isPlaying := true, nextExpectedIndex := 2
    vadActive := false, isSpeaking := false, streamEnded := false, graceTimer := false }

/-- A completion belonging to the interrupted response that arrives after
the cancellation. -/
def lateItem : AudioQueueItem :=
  { payload := some "late".toList, text := "a late sentence".toList, index := 5,
    useFallback := false }

/-- C3 counterexample: cancelling in mid-playback neither resets
nextExpectedIndex to 0 (it stays 2) nor causes a later-arriving
completion to be discarded — the late item is enqueued and sits in the
queue. There is also no generation token in the client state to
increment. -/
theorem claim_C3_counterexample :
    ¬ ((stopAudio midPlaybackState).nextExpectedIndex = 0)
      ∧ ¬ ((clientStep (stopAudio midPlaybackState)
            (ClientEvent.audioEvt lateItem)).queue = []) := by
  refine ⟨by decide, by decide⟩

theorem claim_C3_amended_witness :
    lateItem.index ≠ midPlaybackState.nextExpectedIndex
      ∧ (clientStep (stopAudio midPlaybackState)
          (ClientEvent.audioEvt lateItem)).queue = [lateItem] :=
  ⟨by decide, (claim_C3_amended midPlaybackState).2.2.2.2.2 lateItem (by decide)⟩

/-- C8: a speech-start event received while the AI is speaking always
moves the machine to interrupted — never directly to listening — while
stopping playback immediately (queue cleared, audio element dropped,
fallback utterance cancelled); the grace timer armed by the interruption
then moves the machine to listening. -/
theorem claim_C8_interrupt_path (s : ClientState)
    (h : s.convState = ConvState.aiSpeaking) :
    (clientStep s ClientEvent.speechStart).convState = ConvState.interrupted
      ∧ ¬ ((clientStep s ClientEvent.speechStart).convState = ConvState.listening)
      ∧ (clientStep s ClientEvent.speechStart).queue = []
      ∧ (clientStep s ClientEvent.speechStart).currentAudio = none
      ∧ (clientStep s ClientEvent.speechStart).speechSynth = false
      ∧ (clientStep (clientStep s ClientEvent.speechStart)
          ClientEvent.graceElapsed).convState = ConvState.listening := by
  simp [clientStep, h, stopAudio]

/-- The client state during AI speech used by the C8 witness. -/
def aiSpeakingState : ClientState :=
  { idleClient with convState := ConvState.aiSpeaking, vadActive := false
                    queue := [itemB], isPlaying := true }

theorem claim_C8_interrupt_path_witness :
    aiSpeakingState.convState = ConvState.aiSpeaking
      ∧ ((clientStep aiSpeakingState ClientEvent.speechStart).convState
            = ConvState.interrupted
        ∧ ¬ ((clientStep aiSpeakingState ClientEvent.speechStart).convState
            = ConvState.listening)
        ∧ (clientStep aiSpeakingState ClientEvent.speechStart).queue = []
        ∧ (clientStep aiSpeakingState ClientEvent.speechStart).currentAudio = none
        ∧ (clientStep aiSpeakingState ClientEvent.speechStart).speechSynth = false
        ∧ (clientStep (clientStep aiSpeakingState ClientEvent.speechStart)
            ClientEvent.graceElapsed).convState = ConvState.listening) :=
  ⟨by decide, claim_C8_interrupt_path aiSpeakingState (by decide)⟩

/-- Server-sent events of the message route, in emission order: the
transcript, a per-sentence text event, a per-sentence audio event or
tts_error event, and the final complete event. -/
inductive SSE where
  | transcriptE (t : List Char)
  | textE (t : List Char) (idx : Nat)
  | audioE (payload : List Char) (idx : Nat)
  | ttsErrorE (t : List Char) (idx : Nat)
  | completeE (full : List Char)
deriving DecidableEq

/-- The events the route emits for one sentence: the text event first,
then — because the synthesis call is awaited inline — either the audio
event or the tts_error event for the same index. The synthesis collaborator
is modelled as a function returning the payload or none for a failure. -/
def sentEvents (tts : List Char → Option (List Char)) (idx : Nat) (s : List Char) :
    List SSE :=
  SSE.textE s idx ::
    (match tts s with
     | some a => [SSE.audioE a idx]
     | none => [SSE.ttsErrorE s idx])

/-- Events for a run of sentences, assigning consecutive indices, exactly
like the inner for loop over the sentences of one delta. -/
def emitSentences (tts : List Char → Option (List Char)) : Nat → List (List Char) →
    List SSE
  | _, [] => []
  | idx, s :: rest => sentEvents tts idx s ++ emitSentences tts (idx + 1) rest

/-- The route's streaming loop over the text deltas of the model stream:
each delta goes through addText, each extracted sentence emits its events
and bumps the index. Returns the emitted events, the final sentence
buffer and the final index. -/
def serverLoop (minLen : Nat) (tts : List Char → Option (List Char)) :
    List (List Char) → List Char → Nat → List SSE × List Char × Nat
  | [], buf, idx => ([], buf, idx)
  | d :: ds, buf, idx =>
    let step1 := SentenceBuffer.addText minLen buf d
    let evs := emitSentences tts idx step1.1
    let out := serverLoop minLen tts ds step1.2 (idx + step1.1.length)
    (evs ++ out.1, out.2.1, out.2.2)

/-- The whole event stream of one turn of the route: the transcript
event, the loop over deltas, the flush remainder with its own events, and
the complete event carrying the full response text. -/
def serverTurn (minLen : Nat) (tts : List Char → Option (List Char))
    (userText : List Char) (deltas : List (List Char)) : List SSE :=
  let out := serverLoop minLen tts deltas [] 0
  let flushEvs := match (SentenceBuffer.flushBuf out.2.1).1 with
    | some r => sentEvents tts out.2.2 r
    | none => []
  SSE.transcriptE userText :: (out.1 ++ flushEvs ++ [SSE.completeE deltas.flatten])

theorem emitSentences_append (tts : List Char → Option (List Char)) :
    ∀ (a b : List (List Char)) (idx : Nat),
      emitSentences tts idx (a ++ b)
        = emitSentences tts idx a ++ emitSentences tts (idx + a.length) b := by
  intro a
  induction a with
  | nil => intro b idx; simp [emitSentences]
  | cons s rest ih =>
    intro b idx
    have h2 : idx + 1 + rest.length = idx + (rest.length + 1) := by omega
    simp only [List.cons_append, emitSentences, List.length_cons, List.append_assoc,
      List.append_eq]
    rw [ih, h2]

/-- The nested streaming loop flattens to the per-sentence event list of
the sentences that the segmentation fold produces. -/
theorem serverLoop_eq (minLen : Nat) (tts : List Char → Option (List Char)) :
    ∀ (ds : List (List Char)) (buf : List Char) (idx : Nat),
      serverLoop minLen tts ds buf idx
        = (emitSentences tts idx (segLoop minLen ds buf).1,
            (segLoop minLen ds buf).2, idx + (segLoop minLen ds buf).1.length) := by
  intro ds
  induction ds with
  | nil => intro buf idx; simp [serverLoop, segLoop, emitSentences]
  | cons d rest ih =>
    intro buf idx
    simp only [serverLoop, segLoop, ih, emitSentences_append, List.length_append,
      Prod.mk.injEq]
    refine ⟨trivial, trivial, by omega⟩

/-- The full turn in sequential normal form: the transcript event, then
for each sentence of the turn its text event followed by its audio or
tts_error event with consecutive indices from 0, then the complete
event. -/
theorem serverTurn_normal (minLen : Nat) (tts : List Char → Option (List Char))
    (userText : List Char) (deltas : List (List Char)) :
    serverTurn minLen tts userText deltas
      = SSE.transcriptE userText
          :: (emitSentences tts 0 (segmentAll minLen deltas)
            ++ [SSE.completeE deltas.flatten]) := by
  rw [serverTurn, serverLoop_eq, segmentAll, emitSentences_append]
  cases hf : (SentenceBuffer.flushBuf (segLoop minLen deltas []).2).1 with
  | none => simp [flushList, hf, emitSentences]
  | some r => simp [flushList, hf, emitSentences, List.append_assoc]

/-- The index and kind (0 text, 1 audio, 2 tts_error) of an indexed
event; none for transcript and complete events. -/
def eventTag : SSE → Option (Nat × Nat)
  | SSE.textE _ i => some (i, 0)
  | SSE.audioE _ i => some (i, 1)
  | SSE.ttsErrorE _ i => some (i, 2)
  | _ => none

theorem filterMap_eventTag_emit (tts : List Char → Option (List Char)) :
    ∀ (ss : List (List Char)) (idx : Nat),
      (emitSentences tts idx ss).filterMap eventTag
        = (ss.enumFrom idx).flatMap
            (fun p => [(p.1, 0), (p.1, if (tts p.2).isSome then 1 else 2)]) := by
  intro ss
  induction ss with
  | nil => intro idx; rfl
  | cons s rest ih =>
    intro idx
    cases ht : tts s with
    | none =>
      simp [emitSentences, sentEvents, ht, List.filterMap_append, eventTag, ih,
        List.enumFrom_cons]
    | some a =>
      simp [emitSentences, sentEvents, ht, List.filterMap_append, eventTag, ih,
        List.enumFrom_cons]

/-- C9: the route's event producer is strictly sequential. Projected to
indexed events, the whole turn equals, for each sentence i in order, the
text event for i immediately followed by i's audio event (when synthesis
succeeds) or tts_error event (when it fails): the text event for i
precedes i's audio result, every event for i precedes every event for
i + 1, and audio results leave the producer in index order, one at a time
— the synthesis call for each sentence is awaited before the next
sentence is processed, which the sequential normal form reflects. -/
theorem claim_C9_sequential_producer (minLen : Nat)
    (tts : List Char → Option (List Char)) (userText : List Char)
    (deltas : List (List Char)) :
    (serverTurn minLen tts userText deltas).filterMap eventTag
      = ((segmentAll minLen deltas).enumFrom 0).flatMap
          (fun p => [(p.1, 0), (p.1, if (tts p.2).isSome then 1 else 2)]) := by
  rw [serverTurn_normal]
  simp [List.filterMap_append, eventTag, filterMap_eventTag_emit]

/-- How the client maps an incoming stream event to an audio-queue entry:
an audio event carries the payload (the route does not attach the text,
so the client stores an empty fallback text), a tts_error event carries
the sentence text with the fallback flag set; other events enqueue
nothing. -/
def clientItemOf : SSE → Option AudioQueueItem
  | SSE.audioE a i =>
    some { payload := some a, text := [], index := i, useFallback := false }
  | SSE.ttsErrorE t i =>
    some { payload := none, text := t, index := i, useFallback := true }
  | _ => none

/-- How playAudioItem plays one item: with the fallback flag set or no
payload attached it speaks the stored text with the local fallback voice,
otherwise it plays the synthesized payload. -/
inductive PlayAction where
  | viaAudio (payload : List Char)
  | viaFallback (t : List Char)
deriving DecidableEq

def playAudioItem (it : AudioQueueItem) : PlayAction :=
  if it.useFallback || it.payload.isNone then PlayAction.viaFallback it.text
  else PlayAction.viaAudio (it.payload.getD [])

/-- The queue entries a run of sentences produces on the client, indices
assigned consecutively. -/
def itemsOf (tts : List Char → Option (List Char)) : Nat → List (List Char) →
    List AudioQueueItem
  | _, [] => []
  | idx, s :: rest =>
    (match tts s with
     | some a => { payload := some a, text := [], index := idx, useFallback := false }
     | none => { payload := none, text := s, index := idx, useFallback := true })
      :: itemsOf tts (idx + 1) rest

theorem filterMap_clientItemOf_emit (tts : List Char → Option (List Char)) :
    ∀ (ss : List (List Char)) (idx : Nat),
      (emitSentences tts idx ss).filterMap clientItemOf = itemsOf tts idx ss := by
  intro ss
  induction ss with
  | nil => intro idx; rfl
  | cons s rest ih =>
    intro idx
    cases ht : tts s with
    | none =>
      simp [emitSentences, sentEvents, ht, List.filterMap_append, clientItemOf, ih,
        itemsOf]
    | some a =>
      simp [emitSentences, sentEvents, ht, List.filterMap_append, clientItemOf, ih,
        itemsOf]

theorem itemsOf_map_index (tts : List Char → Option (List Char)) :
    ∀ (ss : List (List Char)) (idx : Nat),
      ((itemsOf tts idx ss).map fun it => it.index) = List.range' idx ss.length := by
  intro ss
  induction ss with
  | nil => intro idx; rfl
  | cons s rest ih =>
    intro idx
    cases ht : tts s with
    | none => simp [itemsOf, ht, ih, List.range'_succ]
    | some a => simp [itemsOf, ht, ih, List.range'_succ]

theorem itemsOf_get? (tts : List Char → Option (List Char)) :
    ∀ (ss : List (List Char)) (idx i : Nat), i < ss.length →
      tts (ss.getD i []) = none →
      (itemsOf tts idx ss).get? i
        = some { payload := none, text := ss.getD i [], index := idx + i
                 useFallback := true } := by
  intro ss
  induction ss with
  | nil => intro idx i hi _; simp at hi
  | cons s rest ih =>
    intro idx i hi ht
    cases i with
    | zero =>
      simp only [List.getD_cons_zero] at ht ⊢
      simp [itemsOf, ht]
    | succ j =>
      have hj : j < rest.length := by
        simp only [List.length_cons] at hi
        omega
      simp only [List.getD_cons_succ] at ht ⊢
      have := ih (idx + 1) j hj ht
      cases hts : tts s with
      | none =>
        simp only [itemsOf, hts, List.get?_cons_succ, this]
        have : idx + 1 + j = idx + (j + 1) := by omega
        rw [this]
      | some a =>
        simp only [itemsOf, hts, List.get?_cons_succ, this]
        have : idx + 1 + j = idx + (j + 1) := by omega
        rw [this]

theorem ttsError_mem_emit (tts : List Char → Option (List Char)) :
    ∀ (ss : List (List Char)) (idx i : Nat), i < ss.length →
      tts (ss.getD i []) = none →
      SSE.ttsErrorE (ss.getD i []) (idx + i) ∈ emitSentences tts idx ss := by
  intro ss
  induction ss with
  | nil => intro idx i hi _; simp at hi
  | cons s rest ih =>
    intro idx i hi ht
    cases i with
    | zero =>
      simp only [List.getD_cons_zero] at ht ⊢
      simp [emitSentences, sentEvents, ht]
    | succ j =>
      have hj : j < rest.length := by
        simp only [List.length_cons] at hi
        omega
      simp only [List.getD_cons_succ] at ht ⊢
      have hmem := ih (idx + 1) j hj ht
      have heq : idx + 1 + j = idx + (j + 1) := by omega
      rw [heq] at hmem
      simp only [emitSentences, List.mem_append]
      exact Or.inr hmem

/-- The audio-queue entries the client enqueues over one turn: every
audio and tts_error event of the stream, in arrival order. -/
def turnItems (minLen : Nat) (tts : List Char → Option (List Char))
    (userText : List Char) (deltas : List (List Char)) : List AudioQueueItem :=
  (serverTurn minLen tts userText deltas).filterMap clientItemOf

theorem turnItems_eq (minLen : Nat) (tts : List Char → Option (List Char))
    (userText : List Char) (deltas : List (List Char)) :
    turnItems minLen tts userText deltas = itemsOf tts 0 (segmentAll minLen deltas) := by
  rw [turnItems, serverTurn_normal]
  simp [List.filterMap_append, clientItemOf, filterMap_clientItemOf_emit]

/-- C6: a synthesis failure on one sentence never aborts the turn. The
enqueued items of a turn carry exactly the indices 0 to n - 1 in order
(indices keep strictly increasing past any failure), the complete event
is still emitted, the drain loop plays every item in its index position,
and for every sentence whose synthesis fails the route emits a tts_error
event carrying that sentence's index and text, the client enqueues it as
a fallback item at that index, and playAudioItem speaks that text via the
local fallback voice in its correct playback position. -/
theorem claim_C6_failure_isolated (minLen : Nat)
    (tts : List Char → Option (List Char)) (userText : List Char)
    (deltas : List (List Char)) :
    ((turnItems minLen tts userText deltas).map fun it => it.index)
        = List.range (segmentAll minLen deltas).length
      ∧ SSE.completeE deltas.flatten ∈ serverTurn minLen tts userText deltas
      ∧ (drainPlay (turnItems minLen tts userText deltas) 0).1
          = turnItems minLen tts userText deltas
      ∧ (drainPlay (turnItems minLen tts userText deltas) 0).2.2 = []
      ∧ ∀ i : Nat, i < (segmentAll minLen deltas).length →
          tts ((segmentAll minLen deltas).getD i []) = none →
          (turnItems minLen tts userText deltas).get? i
              = some { payload := none, text := (segmentAll minLen deltas).getD i []
                       index := i, useFallback := true }
            ∧ SSE.ttsErrorE ((segmentAll minLen deltas).getD i []) i
                ∈ serverTurn minLen tts userText deltas
            ∧ playAudioItem
                { payload := none, text := (segmentAll minLen deltas).getD i []
                  index := i, useFallback := true }
                = PlayAction.viaFallback ((segmentAll minLen deltas).getD i []) := by
  have hmap : ((turnItems minLen tts userText deltas).map fun it => it.index)
      = List.range' 0 (segmentAll minLen deltas).length := by
    rw [turnItems_eq, itemsOf_map_index]
  have hlen : (turnItems minLen tts userText deltas).length
      = (segmentAll minLen deltas).length := by
    have h1 := congrArg List.length hmap
    simpa using h1
  have hdrain := drainPlay_ordered (turnItems minLen tts userText deltas) 0
    (by rw [hmap, hlen])
  refine ⟨?_, ?_, ?_, ?_, ?_⟩
  · rw [hmap, List.range_eq_range']
  · rw [serverTurn_normal]
    simp
  · rw [hdrain]
  · rw [hdrain]
  · intro i hi ht
    refine ⟨?_, ?_, ?_⟩
    · rw [turnItems_eq]
      have h := itemsOf_get? tts (segmentAll minLen deltas) 0 i hi ht
      simpa using h
    · rw [serverTurn_normal]
      have h := ttsError_mem_emit tts (segmentAll minLen deltas) 0 i hi ht
      rw [Nat.zero_add] at h
      exact List.mem_cons_of_mem _ (List.mem_append_left _ h)
    · rfl

/-- The single delta fed to the C6 witness turn. -/
def wDeltas : List (List Char) :=
  ["This is the first test sentence. And here is the second one.".toList]

/-- A synthesis collaborator that fails exactly on the second sentence of
the witness turn. -/
def wTts : List Char → Option (List Char) :=
  fun s => if s = "And here is the second one.".toList then none
    else some "AUDIO".toList

theorem claim_C6_failure_isolated_witness :
    (((turnItems 20 wTts "hi".toList wDeltas).map fun it => it.index)
        = List.range (segmentAll 20 wDeltas).length)
      ∧ ((turnItems 20 wTts "hi".toList wDeltas).get? 1
          = some { payload := none, text := (segmentAll 20 wDeltas).getD 1 []
                   index := 1, useFallback := true }
        ∧ SSE.ttsErrorE ((segmentAll 20 wDeltas).getD 1 []) 1
            ∈ serverTurn 20 wTts "hi".toList wDeltas
        ∧ playAudioItem
            { payload := none, text := (segmentAll 20 wDeltas).getD 1 []
              index := 1, useFallback := true }
            = PlayAction.viaFallback ((segmentAll 20 wDeltas).getD 1 [])) :=
  ⟨(claim_C6_failure_isolated 20 wTts "hi".toList wDeltas).1,
    (claim_C6_failure_isolated 20 wTts "hi".toList wDeltas).2.2.2.2 1
      (by decide) (by decide)⟩
